import Mathlib

/-!
Verification development for the resume-interview-coach application.
The definitions below are a shallow embedding of the text-normalisation,
section-splitting and session-state-machine code of src/app.py.
Text is modelled as List Char; machine strings are plain Lean strings.
-/

/-! Part A: the Text Normalizer (clean_text in app.py). -/

/-- The character class matched by the regex [ \t]. -/
def isST (c : Char) : Bool := c == ' ' || c == '\t'

/-- The ASCII part of the character class matched by the Python regex
class backslash-s and stripped by str.strip.  Python additionally treats a
few rare Unicode code points as whitespace; they are outside this model. -/
def isPySpace (c : Char) : Bool :=
  c == ' ' || c == '\t' || c == '\n' || c == '\r' || c == '\x0b' || c == '\x0c'

/-- re.sub of carriage return by newline, applied to every character. -/
def replCR (l : List Char) : List Char :=
  l.map (fun c => if c == '\r' then '\n' else c)

/-- re.sub collapsing every maximal run of spaces and tabs to one space.
The flag records whether the previous character belonged to such a run. -/
def collapseST : Bool → List Char → List Char
  | _, [] => []
  | prev, c :: cs =>
    if isST c then
      if prev then collapseST true cs
      else ' ' :: collapseST true cs
    else c :: collapseST false cs

/-- re.sub collapsing every run of three or more newlines to exactly two.
The counter records how many consecutive newlines were just emitted. -/
def collapseNLAux : Nat → List Char → List Char
  | _, [] => []
  | k, c :: cs =>
    if c == '\n' then
      if 2 ≤ k then collapseNLAux k cs
      else '\n' :: collapseNLAux (k + 1) cs
    else c :: collapseNLAux 0 cs

/-- Removing leading Python whitespace, as the left half of str.strip. -/
def stripLead (l : List Char) : List Char := l.dropWhile isPySpace

/-- Removing trailing Python whitespace, as the right half of str.strip:
reverse, drop the now-leading whitespace, reverse back. -/
def stripTrail (l : List Char) : List Char := (l.reverse.dropWhile isPySpace).reverse

/-- The same right strip, written by structural recursion; used in proofs. -/
def stripTrailRec : List Char → List Char
  | [] => []
  | c :: cs => if stripTrailRec cs = [] ∧ isPySpace c then [] else c :: stripTrailRec cs

/-- Python str.strip over the modelled whitespace class. -/
def pstrip (l : List Char) : List Char := stripTrail (stripLead l)

/-- clean_text from app.py: carriage returns to newlines, space and tab
runs to one space, newline runs of three or more to two, then strip. -/
def clean_text (l : List Char) : List Char :=
  pstrip (collapseNLAux 0 (collapseST false (replCR l)))

/-! Part B: the Section Splitter (split_sections in app.py). -/

/-- Case folding used by the re.I flag, restricted to ASCII letters. -/
def lcEq (c a : Char) : Bool := c.toLower == a

/-- Whether the lowercase phrase a occurs literally at the head of v,
matching case-insensitively. -/
def phraseAt : List Char → List Char → Bool
  | _, [] => true
  | [], _ :: _ => false
  | c :: cs, a :: rest => lcEq c a && phraseAt cs rest

/-- Whether the regex tail (zero or more whitespace, an optional colon,
zero or more whitespace, then end of string or a newline) can match the
given suffix of the text.  The two branches cover the places where the
final end-or-newline group may land. -/
def afterHeader (s : List Char) : Bool :=
  let w1 := s.takeWhile isPySpace
  let r1 := s.drop w1.length
  w1.contains '\n' || r1.isEmpty ||
    (match r1 with
     | ':' :: s2 =>
       let w2 := s2.takeWhile isPySpace
       let r2 := s2.drop w2.length
       w2.contains '\n' || r2.isEmpty
     | _ => false)

/-- Whether, right after the start-of-line group, the remaining text
matches optional whitespace, one of the header phrases, then the regex
tail.  Because each phrase starts with a letter, the leading whitespace
group must consume the maximal whitespace run. -/
def headerTail (alts : List (List Char)) (u : List Char) : Bool :=
  let v := u.dropWhile isPySpace
  alts.any (fun a => phraseAt v a && afterHeader (v.drop a.length))

/-- Scanning for the leftmost newline that starts a header match; p is
the position of the character at the head of the first argument. -/
def findHeaderAux (alts : List (List Char)) : List Char → Nat → Option Nat
  | [], _ => none
  | c :: cs, p =>
    if c == '\n' && headerTail alts cs then some p
    else findHeaderAux alts cs (p + 1)

/-- re.search of the header pattern for one label: the match may start at
position zero through the caret branch, or at any newline.  The returned
number is the match start, as m.start() in the code. -/
def findHeader (alts : List (List Char)) (t : List Char) : Option Nat :=
  if headerTail alts t then some 0 else findHeaderAux alts t 0

def altsSummary : List (List Char) :=
  ["summary".toList, "professional summary".toList, "profile".toList]

def altsEducation : List (List Char) :=
  ["education".toList, "academics".toList, "academic background".toList]

def altsExperience : List (List Char) :=
  ["experience".toList, "work experience".toList,
   "professional experience".toList, "employment".toList]

def altsProjects : List (List Char) :=
  ["projects".toList, "selected projects".toList, "research".toList]

def altsSkills : List (List Char) :=
  ["skills".toList, "technical skills".toList, "core skills".toList]

def altsCertifications : List (List Char) :=
  ["certifications".toList, "licenses".toList]

/-- The HEADERS table of app.py: label and alternation phrases. -/
def HEADERS : List (String × List (List Char)) :=
  [("summary", altsSummary), ("education", altsEducation),
   ("experience", altsExperience), ("projects", altsProjects),
   ("skills", altsSkills), ("certifications", altsCertifications)]

/-- The found list of the code: for each label in table order, the match
start paired with the label, for the labels whose pattern matched. -/
def rawFound (t : List Char) : List (Nat × String) :=
  HEADERS.filterMap (fun h => (findHeader h.2 t).map (fun p => (p, h.1)))

/-- Python tuple comparison on (int, str) pairs, as used by found.sort. -/
def lexLe (a b : Nat × String) : Prop :=
  a.1 < b.1 ∨ (a.1 = b.1 ∧ a.2 ≤ b.2)

instance : DecidableRel lexLe := fun a b =>
  inferInstanceAs (Decidable (a.1 < b.1 ∨ (a.1 = b.1 ∧ a.2 ≤ b.2)))

instance : IsTotal (Nat × String) lexLe where
  total a b := by
    rcases Nat.lt_trichotomy a.1 b.1 with h | h | h
    · exact Or.inl (Or.inl h)
    · rcases le_total a.2 b.2 with h2 | h2
      · exact Or.inl (Or.inr ⟨h, h2⟩)
      · exact Or.inr (Or.inr ⟨h.symm, h2⟩)
    · exact Or.inr (Or.inl h)

instance : IsTrans (Nat × String) lexLe where
  trans a b c hab hbc := by
    rcases hab with h1 | ⟨e1, s1⟩
    · rcases hbc with h2 | ⟨e2, _⟩
      · exact Or.inl (h1.trans h2)
      · exact Or.inl (e2 ▸ h1)
    · rcases hbc with h2 | ⟨e2, s2⟩
      · exact Or.inl (e1 ▸ h2)
      · exact Or.inr ⟨e1.trans e2, s1.trans s2⟩

/-- found.sort() of the code. -/
def foundSorted (t : List Char) : List (Nat × String) :=
  List.insertionSort lexLe (rawFound t)

/-- The raw, unstripped span of each found header: from its match start
to the next match start, or to the end of the text for the last one. -/
def spansFrom (t : List Char) : List (Nat × String) → List (String × List Char)
  | [] => []
  | (p, k) :: rest =>
    let e := match rest with
      | [] => t.length
      | (q, _) :: _ => q
    (k, (t.drop p).take (e - p)) :: spansFrom t rest

/-- The index ranges underlying the spans; each range runs from a match
start to the next match start or the end of the text. -/
def rangesFrom (t : List Char) : List (Nat × String) → List (Nat × Nat)
  | [] => []
  | (p, _) :: rest =>
    let e := match rest with
      | [] => t.length
      | (q, _) :: _ => q
    (p, e) :: rangesFrom t rest

/-- The sections dictionary built by the loop of split_sections: each
label mapped to its span, stripped. -/
def sectionsOf (t : List Char) (fs : List (Nat × String)) : List (String × List Char) :=
  (spansFrom t fs).map (fun s => (s.1, pstrip s.2))

/-- split_sections from app.py: clean the text, locate headers, fall back
to one summary section when nothing matched, otherwise cut the text at
the sorted match starts; finally synthesize an experience section from
the first 1500 characters when none was detected and the text is longer
than 800 characters. -/
def split_sections (input : List Char) : List (String × List Char) :=
  let t := clean_text input
  let fs := foundSorted t
  if fs.isEmpty then [("summary", t)]
  else
    let sections := sectionsOf t fs
    if sections.lookup ("experience") = none ∧ 800 < t.length then
      sections ++ [("experience", t.take 1500)]
    else sections

/-! Part C: the session state machine (start_session, next_question,
submit_answer, export_session in app.py). -/

/-- A question bank entry.  The field sec holds what the code calls the
section label; section is a reserved word in Lean. -/
structure QEntry where
  sec : String
  question : String
deriving DecidableEq

/-- One transcript record as appended by submit_answer. -/
structure TranscriptEntry where
  ts : Nat
  sec : String
  question : String
  answer : List Char
  feedback : List String
  rating : Int
  sample_answer : String
deriving DecidableEq

/-- The per-session state dictionary. -/
structure SessionState where
  bank : List QEntry
  asked : Finset Nat
  current : Option Nat
  transcript : List TranscriptEntry
deriving DecidableEq

/-- The fresh dictionary built by the error branches and by gr.State. -/
def emptyState : SessionState :=
  { bank := [], asked := ∅, current := none, transcript := [] }

/-- The state start_session builds after a successful bank build. -/
def initState (bank : List QEntry) : SessionState :=
  { bank := bank, asked := ∅, current := none, transcript := [] }

def warnUpload : String := "⚠️ Please upload 1+ PDF resumes."

def warnNoPdf : String := "⚠️ No valid PDFs detected."

def warnClickNext : String := "⚠️ Click ‘Next question’ first."

def warnTypeAnswer : String := "⚠️ Type an answer before submitting."

def msgExhaust : String := "🎉 All questions completed. You can export the transcript."

def msgBuilt (n : Nat) : String :=
  "✅ Question bank built: **" ++ toString n ++ "** questions. Click **Next question** to begin."

/-- An uploaded file handle; only its name is inspected by the code. -/
structure RFile where
  name : String

/-- Python str.lower restricted to ASCII letters. -/
def lowerStr (s : String) : String := String.mk (s.toList.map Char.toLower)

/-- The extension gate f.name.lower().endswith of the code. -/
def endsWithPdf (s : String) : Bool := (".pdf".toList).isSuffixOf (lowerStr s).toList

/-- The separator placed between extracted documents. -/
def sepLine : List Char := "\n\n".toList ++ List.replicate 80 '-' ++ "\n\n".toList

/-- str.join over the document separator. -/
def joinSep : List (List Char) → List Char
  | [] => []
  | [x] => x
  | x :: y :: rest => x ++ sepLine ++ joinSep (y :: rest)

/-- start_session from app.py.  PDF byte extraction and the generative
backend are external collaborators, passed as the functions extract and
bb; the structure of the guards and of the built state is the code.
Note that the error branches return a fresh empty state. -/
def start_session (files : List RFile) (extract : RFile → List Char)
    (bb : List Char → List QEntry) : String × SessionState :=
  if files.isEmpty then (warnUpload, emptyState)
  else
    let texts := (files.filter (fun f => endsWithPdf f.name)).map extract
    if texts.isEmpty then (warnNoPdf, emptyState)
    else
      let combined := '\n' :: '\n' :: joinSep texts
      let bank := bb combined
      (msgBuilt bank.length, initState bank)

/-- The build button wiring: the gr.State output slot is overwritten by
whatever start_session returns, whatever the prior state was. -/
def buildOp (prior : SessionState) (files : List RFile) (extract : RFile → List Char)
    (bb : List Char → List QEntry) : String × SessionState :=
  let _ := prior
  start_session files extract bb

/-- The candidates list of next_question: indices not yet asked. -/
def candidatesOf (s : SessionState) : List Nat :=
  (List.range s.bank.length).filter (fun i => decide (i ∉ s.asked))

/-- next_question from app.py.  random.choice is modelled by an oracle r
selecting position r mod length in the candidates list, so every
candidate is reachable by some oracle value. -/
def next_question (r : Nat) (s : SessionState) : String × SessionState :=
  let cands := candidatesOf s
  if cands.isEmpty then (msgExhaust, { s with current := none })
  else
    let idx := cands.getD (r % cands.length) 0
    let q := s.bank.getD idx ⟨"", ""⟩
    ("**Question (" ++ q.sec ++ "):** " ++ q.question,
     { s with asked := insert idx s.asked, current := some idx })

/-- The parsed critique JSON object; every field may be absent.  A
rating value that is not coercible to int raises inside the same try
block and therefore follows the transport-error path, so the parsed
rating is modelled as an integer when present. -/
structure CritJson where
  feedback : Option (List String)
  rating : Option Int
  sample_answer : Option String
deriving DecidableEq

/-- Outcome of the critique backend call: a raised exception, or a
response body that either parsed as strict JSON or did not. -/
inductive BackendResult where
  | err (msg : String)
  | ok (parsed : Option CritJson)
deriving DecidableEq

/-- The placeholder dictionary substituted on strict-JSON failure. -/
def fallbackCrit : CritJson :=
  { feedback := some ["(Model returned non-JSON; retry)"],
    rating := some 0, sample_answer := some "" }

/-- Python answer or the empty string. -/
def orEmpty : Option String → String
  | none => ""
  | some s => s

/-- The rating stored by submit_answer for a given parse outcome. -/
def ratingOf (parsed : Option CritJson) : Int :=
  ((parsed.getD fallbackCrit).rating).getD 0

/-- submit_answer from app.py.  The backend call is an oracle argument;
ts stands for time.time(). -/
def submit_answer (s : SessionState) (ans : Option String)
    (backend : BackendResult) (ts : Nat) : String × SessionState :=
  match s.current with
  | none => (warnClickNext, s)
  | some idx =>
    if s.bank.length ≤ idx then (warnClickNext, s)
    else
      let answer := pstrip (orEmpty ans).toList
      if answer.isEmpty then (warnTypeAnswer, s)
      else
        let qitem := s.bank.getD idx ⟨"", ""⟩
        match backend with
        | .err e => ("❌ API error: " ++ e, s)
        | .ok parsed =>
          let data := parsed.getD fallbackCrit
          let feedback := data.feedback.getD []
          let rating := data.rating.getD 0
          let sample := data.sample_answer.getD ""
          let entry : TranscriptEntry :=
            { ts := ts, sec := qitem.sec, question := qitem.question,
              answer := answer, feedback := feedback, rating := rating,
              sample_answer := sample }
          let fbLines :=
            if feedback.isEmpty then "(no feedback)"
            else String.intercalate "\n" (feedback.map (fun f => "- " ++ f))
          let msg := "**⭐ Rating:** " ++ toString rating ++ "/5\n\n**Feedback**\n"
            ++ fbLines ++ "\n\n**Sample strong answer**\n" ++ sample
          (msg, { s with transcript := s.transcript ++ [entry] })

/-- export_session from app.py: read-only over the state; the file is
the serialized transcript when there is one. -/
def export_session (s : SessionState) : Option (List TranscriptEntry) × String :=
  if s.transcript.isEmpty then (none, "⚠️ No transcript yet.")
  else (some s.transcript, "📁 Export ready.")

/-- One UI event, as wired in the Blocks section of app.py.  The build
click overwrites the state with what start_session returns; the export
click does not output the state at all. -/
inductive SessionStep : SessionState → SessionState → Prop
  | build (s : SessionState) (files : List RFile) (extract : RFile → List Char)
      (bb : List Char → List QEntry) : SessionStep s (buildOp s files extract bb).2
  | nextq (s : SessionState) (r : Nat) : SessionStep s (next_question r s).2
  | submit (s : SessionState) (ans : Option String) (backend : BackendResult)
      (ts : Nat) : SessionStep s (submit_answer s ans backend ts).2
  | exporting (s : SessionState) : SessionStep s s

/-- The data-model invariant of the specification. -/
def SessionInv (s : SessionState) : Prop :=
  (∀ i ∈ s.asked, i < s.bank.length) ∧ ∀ i, s.current = some i → i ∈ s.asked

/-- Folding a sequence of next clicks over the state. -/
def runNexts (rs : List Nat) (s : SessionState) : SessionState :=
  rs.foldl (fun st r => (next_question r st).2) s

/-- The index next_question selects, when one exists. -/
def pickedOne (r : Nat) (s : SessionState) : Option Nat :=
  let cands := candidatesOf s
  if cands.isEmpty then none else some (cands.getD (r % cands.length) 0)

/-- All indices selected along a sequence of next clicks. -/
def pickedAlong : List Nat → SessionState → List Nat
  | [], _ => []
  | r :: rs, s =>
    match pickedOne r s with
    | none => pickedAlong rs (next_question r s).2
    | some i => i :: pickedAlong rs (next_question r s).2

/-- A concrete in-progress session state, used to instantiate claims. -/
def sampleState : SessionState :=
  { bank := [⟨"skills", "Q"⟩], asked := {0}, current := some 0, transcript := [] }

/-- The same concrete state with current pointing beyond the bank. -/
def sampleStateOob : SessionState :=
  { bank := [⟨"skills", "Q"⟩], asked := {0}, current := some 7, transcript := [] }

/-! Part D: predicates over character lists used to state the shape of
normalised text. -/

/-- No carriage return occurs in the list. -/
def noCR (l : List Char) : Bool := l.all (fun c => !(c == '\r'))

/-- Every space-or-tab character in the list is a plain space. -/
def stOnlySpace (l : List Char) : Bool := l.all (fun c => !(isST c) || c == ' ')

/-- Whether the list starts with a space-or-tab character. -/
def headST : List Char → Bool
  | [] => false
  | c :: _ => isST c

/-- No two adjacent characters are both space-or-tab. -/
def noAdjST : List Char → Bool
  | a :: b :: rest => !(isST a && isST b) && noAdjST (b :: rest)
  | _ => true

/-- Whether the list starts with one newline. -/
def oneNLPre : List Char → Bool
  | [] => false
  | c :: _ => c == '\n'

/-- Whether the list starts with two newlines. -/
def twoNLPre : List Char → Bool
  | [] => false
  | c :: cs => c == '\n' && oneNLPre cs

/-- Whether the list starts with three newlines. -/
def threeNLPre : List Char → Bool
  | [] => false
  | c :: cs => c == '\n' && twoNLPre cs

/-- No run of three consecutive newlines occurs in the list. -/
def noTriple : List Char → Bool
  | [] => true
  | c :: cs => !(threeNLPre (c :: cs)) && noTriple cs

/-! Part E: lemmas about the text normaliser, leading to idempotence. -/

theorem noAdjST_cons (a : Char) (l : List Char) :
    noAdjST (a :: l) = (!(isST a && headST l) && noAdjST l) := by
  cases l <;> simp [noAdjST, headST]

theorem noCR_iff {l : List Char} : noCR l = true ↔ ∀ c ∈ l, ¬c = '\r' := by
  simp [noCR]

theorem stOnlySpace_iff {l : List Char} :
    stOnlySpace l = true ↔ ∀ c ∈ l, isST c = false ∨ c = ' ' := by
  simp [stOnlySpace, Bool.or_eq_true, Bool.not_eq_true]

theorem andE {a b : Bool} (h : (a && b) = true) : a = true ∧ b = true := by
  simp only [Bool.and_eq_true] at h
  exact h

theorem andI {a b : Bool} (h1 : a = true) (h2 : b = true) : (a && b) = true := by
  simp only [Bool.and_eq_true]
  exact ⟨h1, h2⟩

theorem noAdjST_tail : ∀ (c : Char) (cs : List Char),
    noAdjST (c :: cs) = true → noAdjST cs = true := by
  intro c cs h
  rw [noAdjST_cons] at h
  exact (andE h).2

theorem noTriple_tail : ∀ (c : Char) (cs : List Char),
    noTriple (c :: cs) = true → noTriple cs = true := by
  intro c cs h
  exact (andE h).2

theorem noTriple_cons_split {c : Char} {cs : List Char} (h : noTriple (c :: cs) = true) :
    threeNLPre (c :: cs) = false ∧ noTriple cs = true := by
  obtain ⟨h1, h2⟩ := andE h
  refine ⟨?_, h2⟩
  cases h3 : threeNLPre (c :: cs)
  · rfl
  · rw [h3] at h1
    simp at h1

theorem replCR_noCR (l : List Char) : noCR (replCR l) = true := by
  rw [noCR_iff]
  intro c hc
  rcases List.mem_map.mp hc with ⟨a, _, ha⟩
  intro he
  rw [← ha] at he
  by_cases h : a = '\r'
  · rw [if_pos (by simp [h])] at he
    exact absurd he (by decide)
  · rw [if_neg (by simp [h])] at he
    exact h he

theorem replCR_id {l : List Char} (h : noCR l = true) : replCR l = l := by
  induction l with
  | nil => rfl
  | cons c cs ih =>
    rw [noCR_iff] at h
    have hc : (c == '\r') = false := by
      have := h c (List.mem_cons_self c cs)
      simpa using this
    have hcs : noCR cs = true := by
      rw [noCR_iff]
      exact fun d hd => h d (List.mem_cons_of_mem c hd)
    show (if c == '\r' then '\n' else c) :: replCR cs = c :: cs
    rw [hc, ih hcs]
    simp

theorem collapseST_mem {b : Bool} {l : List Char} {c : Char}
    (h : c ∈ collapseST b l) : c = ' ' ∨ (isST c = false ∧ c ∈ l) := by
  induction l generalizing b with
  | nil => simp [collapseST] at h
  | cons d ds ih =>
    cases hd : isST d
    · rw [show collapseST b (d :: ds) = d :: collapseST false ds by
        cases b <;> simp [collapseST, hd]] at h
      rcases List.mem_cons.mp h with h1 | h1
      · exact Or.inr ⟨h1 ▸ hd, h1 ▸ List.mem_cons_self d ds⟩
      · rcases ih h1 with h2 | ⟨h2, h3⟩
        · exact Or.inl h2
        · exact Or.inr ⟨h2, List.mem_cons_of_mem d h3⟩
    · cases b
      · rw [show collapseST false (d :: ds) = ' ' :: collapseST true ds by
          simp [collapseST, hd]] at h
        rcases List.mem_cons.mp h with h1 | h1
        · exact Or.inl h1
        · rcases ih h1 with h2 | ⟨h2, h3⟩
          · exact Or.inl h2
          · exact Or.inr ⟨h2, List.mem_cons_of_mem d h3⟩
      · rw [show collapseST true (d :: ds) = collapseST true ds by
          simp [collapseST, hd]] at h
        rcases ih h with h2 | ⟨h2, h3⟩
        · exact Or.inl h2
        · exact Or.inr ⟨h2, List.mem_cons_of_mem d h3⟩

theorem collapseST_headST (l : List Char) : headST (collapseST true l) = false := by
  induction l with
  | nil => rfl
  | cons d ds ih =>
    cases hd : isST d
    · simp [collapseST, hd, headST]
    · simpa [collapseST, hd] using ih

theorem collapseST_noAdj (l : List Char) : ∀ b, noAdjST (collapseST b l) = true := by
  induction l with
  | nil => intro b; rfl
  | cons d ds ih =>
    intro b
    cases hd : isST d
    · rw [show collapseST b (d :: ds) = d :: collapseST false ds by
        cases b <;> simp [collapseST, hd]]
      rw [noAdjST_cons]
      simp only [hd, Bool.false_and, Bool.not_false, Bool.true_and]
      exact ih false
    · cases b
      · rw [show collapseST false (d :: ds) = ' ' :: collapseST true ds by
          simp [collapseST, hd]]
        rw [noAdjST_cons]
        simp only [collapseST_headST, Bool.and_false, Bool.not_false, Bool.true_and]
        exact ih true
      · rw [show collapseST true (d :: ds) = collapseST true ds by
          simp [collapseST, hd]]
        exact ih true

theorem collapseST_stOnly (l : List Char) (b : Bool) :
    stOnlySpace (collapseST b l) = true := by
  rw [stOnlySpace_iff]
  intro c hc
  rcases collapseST_mem hc with h | ⟨h, _⟩
  · exact Or.inr h
  · exact Or.inl h

theorem collapseST_id : ∀ (l : List Char) (b : Bool),
    stOnlySpace l = true → noAdjST l = true →
    (b = true → headST l = false) → collapseST b l = l := by
  intro l
  induction l with
  | nil => intro b _ _ _; rfl
  | cons d ds ih =>
    intro b hst hadj hhd
    have hstds : stOnlySpace ds = true := by
      rw [stOnlySpace_iff] at hst ⊢
      exact fun c hc => hst c (List.mem_cons_of_mem d hc)
    have hadjds : noAdjST ds = true := noAdjST_tail d ds hadj
    cases hd : isST d
    · rw [show collapseST b (d :: ds) = d :: collapseST false ds by
        cases b <;> simp [collapseST, hd]]
      rw [ih false hstds hadjds (fun h => by cases h)]
    · have hb : b = false := by
        cases b
        · rfl
        · have := hhd rfl
          rw [headST] at this
          rw [hd] at this
          cases this
      subst hb
      have hd' : d = ' ' := by
        rcases stOnlySpace_iff.mp hst d (List.mem_cons_self d ds) with h | h
        · rw [hd] at h; cases h
        · exact h
      rw [show collapseST false (d :: ds) = ' ' :: collapseST true ds by
        simp [collapseST, hd]]
      rw [hd']
      congr 1
      apply ih true hstds hadjds
      intro _
      rw [noAdjST_cons] at hadj
      obtain ⟨h1, _⟩ := andE hadj
      rw [hd] at h1
      rw [Bool.not_eq_true'] at h1
      simpa using h1

theorem collapseNLAux_mem {k : Nat} {l : List Char} {c : Char}
    (h : c ∈ collapseNLAux k l) : c ∈ l := by
  induction l generalizing k with
  | nil => simp [collapseNLAux] at h
  | cons d ds ih =>
    cases hd : d == '\n'
    · rw [show collapseNLAux k (d :: ds) = d :: collapseNLAux 0 ds by
        simp [collapseNLAux, hd]] at h
      rcases List.mem_cons.mp h with h1 | h1
      · exact h1 ▸ List.mem_cons_self d ds
      · exact List.mem_cons_of_mem d (ih h1)
    · by_cases hk : 2 ≤ k
      · rw [show collapseNLAux k (d :: ds) = collapseNLAux k ds by
          simp [collapseNLAux, hd, hk]] at h
        exact List.mem_cons_of_mem d (ih h)
      · rw [show collapseNLAux k (d :: ds) = '\n' :: collapseNLAux (k + 1) ds by
          simp [collapseNLAux, hd, hk]] at h
        rcases List.mem_cons.mp h with h1 | h1
        · have : d = '\n' := by simpa using hd
          exact (h1.trans this.symm) ▸ List.mem_cons_self d ds
        · exact List.mem_cons_of_mem d (ih h1)

theorem collapseNLAux_zero_headST (l : List Char) :
    headST (collapseNLAux 0 l) = headST l := by
  cases l with
  | nil => rfl
  | cons d ds =>
    cases hd : d == '\n'
    · rw [show collapseNLAux 0 (d :: ds) = d :: collapseNLAux 0 ds by
        simp [collapseNLAux, hd]]
      rfl
    · have hdeq : d = '\n' := by simpa using hd
      subst hdeq
      rw [show collapseNLAux 0 ('\n' :: ds) = '\n' :: collapseNLAux 1 ds by
        simp [collapseNLAux]]
      rfl

theorem collapseNLAux_noAdj : ∀ (l : List Char) (k : Nat),
    noAdjST l = true → noAdjST (collapseNLAux k l) = true := by
  intro l
  induction l with
  | nil => intro k _; rfl
  | cons d ds ih =>
    intro k hadj
    have hds : noAdjST ds = true := noAdjST_tail d ds hadj
    cases hd : d == '\n'
    · rw [show collapseNLAux k (d :: ds) = d :: collapseNLAux 0 ds by
        simp [collapseNLAux, hd]]
      rw [noAdjST_cons]
      apply andI _ (ih 0 hds)
      rw [collapseNLAux_zero_headST]
      rw [noAdjST_cons] at hadj
      exact (andE hadj).1
    · have hdeq : d = '\n' := by simpa using hd
      subst hdeq
      by_cases hk : 2 ≤ k
      · rw [show collapseNLAux k ('\n' :: ds) = collapseNLAux k ds by
          simp [collapseNLAux, hk]]
        exact ih k hds
      · rw [show collapseNLAux k ('\n' :: ds) = '\n' :: collapseNLAux (k + 1) ds by
          simp [collapseNLAux, hk]]
        rw [noAdjST_cons]
        apply andI _ (ih (k + 1) hds)
        simp [isST]

theorem collapseNLAux_noTriple : ∀ (l : List Char) (k : Nat),
    noTriple (collapseNLAux k l) = true ∧
    (1 ≤ k → twoNLPre (collapseNLAux k l) = false) ∧
    (2 ≤ k → oneNLPre (collapseNLAux k l) = false) := by
  intro l
  induction l with
  | nil => intro k; exact ⟨rfl, fun _ => rfl, fun _ => rfl⟩
  | cons d ds ih =>
    intro k
    cases hd : d == '\n'
    · rw [show collapseNLAux k (d :: ds) = d :: collapseNLAux 0 ds by
        simp [collapseNLAux, hd]]
      refine ⟨?_, fun _ => ?_, fun _ => ?_⟩
      · show (!(threeNLPre (d :: collapseNLAux 0 ds)) && noTriple (collapseNLAux 0 ds)) = true
        apply andI _ (ih 0).1
        show (!(d == '\n' && twoNLPre (collapseNLAux 0 ds))) = true
        rw [hd]
        simp
      · show (d == '\n' && oneNLPre (collapseNLAux 0 ds)) = false
        rw [hd]
        simp
      · show (d == '\n') = false
        exact hd
    · have hdeq : d = '\n' := by simpa using hd
      subst hdeq
      by_cases hk : 2 ≤ k
      · rw [show collapseNLAux k ('\n' :: ds) = collapseNLAux k ds by
          simp [collapseNLAux, hk]]
        exact ih k
      · rw [show collapseNLAux k ('\n' :: ds) = '\n' :: collapseNLAux (k + 1) ds by
          simp [collapseNLAux, hk]]
        obtain ⟨h1, h2, h3⟩ := ih (k + 1)
        refine ⟨?_, fun _ => ?_, fun hk2 => absurd hk2 hk⟩
        · show (!(threeNLPre ('\n' :: collapseNLAux (k + 1) ds))
            && noTriple (collapseNLAux (k + 1) ds)) = true
          apply andI _ h1
          show (!('\n' == '\n' && twoNLPre (collapseNLAux (k + 1) ds))) = true
          rw [h2 (by omega)]
          simp
        · show ('\n' == '\n' && oneNLPre (collapseNLAux (k + 1) ds)) = false
          rw [h3 (by omega)]
          simp

theorem collapseNLAux_id : ∀ l : List Char, noTriple l = true →
    collapseNLAux 0 l = l ∧
    (twoNLPre l = false → collapseNLAux 1 l = l) ∧
    (oneNLPre l = false → collapseNLAux 2 l = l) := by
  intro l
  induction l with
  | nil => intro _; exact ⟨rfl, fun _ => rfl, fun _ => rfl⟩
  | cons d ds ih =>
    intro h
    obtain ⟨h3, hds⟩ := noTriple_cons_split h
    obtain ⟨ih1, ih2, ih3⟩ := ih hds
    cases hd : d == '\n'
    · have hout : ∀ k, collapseNLAux k (d :: ds) = d :: collapseNLAux 0 ds := by
        intro k
        simp [collapseNLAux, hd]
      exact ⟨by rw [hout, ih1], fun _ => by rw [hout, ih1], fun _ => by rw [hout, ih1]⟩
    · have hdeq : d = '\n' := by simpa using hd
      subst hdeq
      have h2ds : twoNLPre ds = false := by
        have : threeNLPre ('\n' :: ds) = ('\n' == '\n' && twoNLPre ds) := rfl
        rw [this] at h3
        simpa using h3
      refine ⟨?_, ?_, ?_⟩
      · rw [show collapseNLAux 0 ('\n' :: ds) = '\n' :: collapseNLAux 1 ds by
          simp [collapseNLAux]]
        rw [ih2 h2ds]
      · intro htwo
        have h1ds : oneNLPre ds = false := by
          have : twoNLPre ('\n' :: ds) = ('\n' == '\n' && oneNLPre ds) := rfl
          rw [this] at htwo
          simpa using htwo
        rw [show collapseNLAux 1 ('\n' :: ds) = '\n' :: collapseNLAux 2 ds by
          simp [collapseNLAux]]
        rw [ih3 h1ds]
      · intro hone
        have : oneNLPre ('\n' :: ds) = ('\n' == '\n') := rfl
        rw [this] at hone
        simp at hone

theorem dropWhile_pres {P : List Char → Bool}
    (hP : ∀ c cs, P (c :: cs) = true → P cs = true) (q : Char → Bool) :
    ∀ {l : List Char}, P l = true → P (l.dropWhile q) = true := by
  intro l h
  induction l with
  | nil => simpa using h
  | cons c cs ih =>
    rw [List.dropWhile_cons]
    cases hc : q c
    · simpa [hc] using h
    · simp only [hc, if_pos rfl]
      exact ih (hP c cs h)

theorem dropWhile_mem (q : Char → Bool) {l : List Char} {c : Char}
    (h : c ∈ l.dropWhile q) : c ∈ l := by
  induction l with
  | nil => simp at h
  | cons d ds ih =>
    rw [List.dropWhile_cons] at h
    cases hd : q d
    · rw [hd] at h
      simpa using h
    · rw [hd] at h
      simp only [if_pos rfl] at h
      exact List.mem_cons_of_mem d (ih h)

theorem stripTrailRec_shape (c : Char) (cs : List Char) :
    stripTrailRec (c :: cs) = [] ∨ stripTrailRec (c :: cs) = c :: stripTrailRec cs := by
  by_cases h : stripTrailRec cs = [] ∧ isPySpace c = true
  · left
    simp only [stripTrailRec, if_pos h]
  · right
    simp only [stripTrailRec, if_neg h]

theorem stripTrailRec_mem {l : List Char} {c : Char} (h : c ∈ stripTrailRec l) : c ∈ l := by
  induction l with
  | nil => simp [stripTrailRec] at h
  | cons d ds ih =>
    rcases stripTrailRec_shape d ds with hs | hs
    · rw [hs] at h
      simp at h
    · rw [hs] at h
      rcases List.mem_cons.mp h with h1 | h1
      · exact h1 ▸ List.mem_cons_self d ds
      · exact List.mem_cons_of_mem d (ih h1)

theorem headST_stripTrailRec {l : List Char} (h : headST (stripTrailRec l) = true) :
    headST l = true := by
  cases l with
  | nil => simpa [stripTrailRec] using h
  | cons d ds =>
    rcases stripTrailRec_shape d ds with hs | hs
    · rw [hs] at h
      simp [headST] at h
    · rw [hs] at h
      exact h

theorem stripTrailRec_noAdj {l : List Char} (h : noAdjST l = true) :
    noAdjST (stripTrailRec l) = true := by
  induction l with
  | nil => exact h
  | cons d ds ih =>
    rcases stripTrailRec_shape d ds with hs | hs
    · rw [hs]
      rfl
    · rw [hs, noAdjST_cons]
      rw [noAdjST_cons] at h
      obtain ⟨h1, h2⟩ := andE h
      apply andI _ (ih h2)
      cases hds : headST (stripTrailRec ds)
      · simp
      · rw [headST_stripTrailRec hds] at h1
        exact h1

theorem oneNLPre_stripTrailRec {l : List Char} (h : oneNLPre (stripTrailRec l) = true) :
    oneNLPre l = true := by
  cases l with
  | nil => simpa [stripTrailRec] using h
  | cons d ds =>
    rcases stripTrailRec_shape d ds with hs | hs
    · rw [hs] at h
      simp [oneNLPre] at h
    · rw [hs] at h
      exact h

theorem twoNLPre_stripTrailRec {l : List Char} (h : twoNLPre (stripTrailRec l) = true) :
    twoNLPre l = true := by
  cases l with
  | nil => simpa [stripTrailRec] using h
  | cons d ds =>
    rcases stripTrailRec_shape d ds with hs | hs
    · rw [hs] at h
      simp [twoNLPre] at h
    · rw [hs] at h
      show (d == '\n' && oneNLPre ds) = true
      have h' : (d == '\n' && oneNLPre (stripTrailRec ds)) = true := h
      obtain ⟨ha, hb⟩ := andE h'
      exact andI ha (oneNLPre_stripTrailRec hb)

theorem stripTrailRec_noTriple {l : List Char} (h : noTriple l = true) :
    noTriple (stripTrailRec l) = true := by
  induction l with
  | nil => exact h
  | cons d ds ih =>
    obtain ⟨h3, hds⟩ := noTriple_cons_split h
    rcases stripTrailRec_shape d ds with hs | hs
    · rw [hs]
      rfl
    · rw [hs]
      show (!(threeNLPre (d :: stripTrailRec ds)) && noTriple (stripTrailRec ds)) = true
      apply andI _ (ih hds)
      cases h3' : threeNLPre (d :: stripTrailRec ds)
      · rfl
      · exfalso
        have h3'' : (d == '\n' && twoNLPre (stripTrailRec ds)) = true := h3'
        obtain ⟨ha, hb⟩ := andE h3''
        have : threeNLPre (d :: ds) = true := andI ha (twoNLPre_stripTrailRec hb)
        rw [this] at h3
        cases h3

theorem dropWhile_idem (q : Char → Bool) (l : List Char) :
    (l.dropWhile q).dropWhile q = l.dropWhile q := by
  induction l with
  | nil => rfl
  | cons c cs ih =>
    rw [List.dropWhile_cons]
    cases hc : q c
    · simp [List.dropWhile_cons, hc]
    · simpa [hc] using ih

theorem length_dropWhile_le' (q : Char → Bool) (l : List Char) :
    (l.dropWhile q).length ≤ l.length := by
  induction l with
  | nil => simp
  | cons c cs ih =>
    rw [List.dropWhile_cons]
    cases hc : q c
    · simp
    · simp only [if_pos rfl]
      exact Nat.le_succ_of_le ih

theorem stripTrailRec_idem (l : List Char) : stripTrailRec (stripTrailRec l) = stripTrailRec l := by
  induction l with
  | nil => rfl
  | cons c cs ih =>
    by_cases h : stripTrailRec cs = [] ∧ isPySpace c = true
    · rw [show stripTrailRec (c :: cs) = [] from by simp only [stripTrailRec, if_pos h]]
      rfl
    · rw [show stripTrailRec (c :: cs) = c :: stripTrailRec cs from by
        simp only [stripTrailRec, if_neg h]]
      show (if stripTrailRec (stripTrailRec cs) = [] ∧ isPySpace c = true then []
        else c :: stripTrailRec (stripTrailRec cs)) = c :: stripTrailRec cs
      rw [ih, if_neg h]

theorem stripLead_cons_eq {c : Char} {cs : List Char}
    (h : stripLead (c :: cs) = c :: cs) : isPySpace c = false := by
  cases hc : isPySpace c
  · rfl
  · exfalso
    have h2 : stripLead (c :: cs) = stripLead cs := by
      show List.dropWhile isPySpace (c :: cs) = List.dropWhile isPySpace cs
      rw [List.dropWhile_cons, hc]
      simp
    rw [h2] at h
    have hlen := length_dropWhile_le' isPySpace cs
    rw [show stripLead cs = List.dropWhile isPySpace cs from rfl] at h
    rw [h] at hlen
    simp at hlen

theorem stripLead_stripTrailRec {u : List Char} (h : stripLead u = u) :
    stripLead (stripTrailRec u) = stripTrailRec u := by
  cases u with
  | nil => rfl
  | cons c cs =>
    have hc : isPySpace c = false := stripLead_cons_eq h
    rcases stripTrailRec_shape c cs with hs | hs
    · rw [hs]
      rfl
    · rw [hs]
      show List.dropWhile isPySpace (c :: stripTrailRec cs) = c :: stripTrailRec cs
      rw [List.dropWhile_cons, hc]
      simp

theorem stripTrail_eq_rec : ∀ l : List Char, stripTrail l = stripTrailRec l := by
  intro l
  induction l with
  | nil => rfl
  | cons c cs ih =>
    show ((c :: cs).reverse.dropWhile isPySpace).reverse = stripTrailRec (c :: cs)
    rw [List.reverse_cons, List.dropWhile_append]
    by_cases hnil : cs.reverse.dropWhile isPySpace = []
    · have hrec : stripTrailRec cs = [] := by
        rw [← ih]
        show (cs.reverse.dropWhile isPySpace).reverse = []
        rw [hnil]
        rfl
      rw [hnil]
      rw [show (if ([] : List Char).isEmpty = true then List.dropWhile isPySpace [c]
        else ([] : List Char) ++ [c]) = List.dropWhile isPySpace [c] from rfl]
      cases hc : isPySpace c
      · rw [show List.dropWhile isPySpace [c] = [c] from by
          rw [List.dropWhile_cons, hc]
          simp]
        have hcond : ¬(stripTrailRec cs = [] ∧ isPySpace c = true) := by
          intro hand
          rw [hc] at hand
          exact Bool.false_ne_true hand.2
        rw [show stripTrailRec (c :: cs) = c :: stripTrailRec cs from by
          simp only [stripTrailRec]
          rw [if_neg hcond]]
        rw [hrec]
        rfl
      · rw [show List.dropWhile isPySpace [c] = [] from by
          rw [List.dropWhile_cons, hc]
          rfl]
        rw [show stripTrailRec (c :: cs) = [] from by
          simp only [stripTrailRec]
          rw [if_pos ⟨hrec, hc⟩]]
        rfl
    · have hrec : stripTrailRec cs ≠ [] := by
        rw [← ih]
        intro h0
        apply hnil
        have h1 : (cs.reverse.dropWhile isPySpace).reverse = [] := h0
        have h2 := congrArg List.reverse h1
        rw [List.reverse_reverse] at h2
        exact h2
      have hne : (cs.reverse.dropWhile isPySpace).isEmpty = false := by
        cases he : cs.reverse.dropWhile isPySpace
        · exact absurd he hnil
        · rfl
      rw [hne]
      rw [if_neg (by simp)]
      rw [List.reverse_append, List.reverse_singleton]
      have hcond : ¬(stripTrailRec cs = [] ∧ isPySpace c = true) :=
        fun hand => hrec hand.1
      rw [show stripTrailRec (c :: cs) = c :: stripTrailRec cs from by
        simp only [stripTrailRec, if_neg hcond]]
      rw [← ih]
      rfl

theorem pstrip_idem (l : List Char) : pstrip (pstrip l) = pstrip l := by
  show stripTrail (stripLead (stripTrail (stripLead l))) = stripTrail (stripLead l)
  simp only [stripTrail_eq_rec]
  have h0 : stripLead (stripLead l) = stripLead l := dropWhile_idem isPySpace l
  rw [stripLead_stripTrailRec h0, stripTrailRec_idem]

theorem pstrip_mem {l : List Char} {c : Char} (h : c ∈ pstrip l) : c ∈ l := by
  have h2 : c ∈ stripTrailRec (stripLead l) := by
    rw [← stripTrail_eq_rec]
    exact h
  exact dropWhile_mem isPySpace (stripTrailRec_mem h2)

theorem pstrip_noAdj {l : List Char} (h : noAdjST l = true) :
    noAdjST (pstrip l) = true := by
  show noAdjST (stripTrail (stripLead l)) = true
  rw [stripTrail_eq_rec]
  exact stripTrailRec_noAdj (dropWhile_pres noAdjST_tail isPySpace h)

theorem pstrip_noTriple {l : List Char} (h : noTriple l = true) :
    noTriple (pstrip l) = true := by
  show noTriple (stripTrail (stripLead l)) = true
  rw [stripTrail_eq_rec]
  exact stripTrailRec_noTriple (dropWhile_pres noTriple_tail isPySpace h)

theorem clean_text_noCR (l : List Char) : noCR (clean_text l) = true := by
  rw [noCR_iff]
  intro c hc
  have hc2 : c ∈ collapseST false (replCR l) := collapseNLAux_mem (pstrip_mem hc)
  rcases collapseST_mem hc2 with h | ⟨_, h⟩
  · subst h
    decide
  · exact noCR_iff.mp (replCR_noCR l) c h

theorem clean_text_stOnly (l : List Char) : stOnlySpace (clean_text l) = true := by
  rw [stOnlySpace_iff]
  intro c hc
  have hc2 : c ∈ collapseST false (replCR l) := collapseNLAux_mem (pstrip_mem hc)
  rcases collapseST_mem hc2 with h | ⟨h, _⟩
  · exact Or.inr h
  · exact Or.inl h

theorem clean_text_noAdj (l : List Char) : noAdjST (clean_text l) = true :=
  pstrip_noAdj (collapseNLAux_noAdj _ 0 (collapseST_noAdj (replCR l) false))

theorem clean_text_noTriple (l : List Char) : noTriple (clean_text l) = true :=
  pstrip_noTriple (collapseNLAux_noTriple (collapseST false (replCR l)) 0).1

theorem clean_text_pstrip (l : List Char) : pstrip (clean_text l) = clean_text l :=
  pstrip_idem _

theorem clean_text_of_clean (l : List Char) :
    clean_text (clean_text l) = clean_text l := by
  have h1 : replCR (clean_text l) = clean_text l := replCR_id (clean_text_noCR l)
  have h2 : collapseST false (clean_text l) = clean_text l := by
    apply collapseST_id (clean_text l) false (clean_text_stOnly l) (clean_text_noAdj l)
    intro h
    cases h
  have h3 : collapseNLAux 0 (clean_text l) = clean_text l :=
    (collapseNLAux_id (clean_text l) (clean_text_noTriple l)).1
  show pstrip (collapseNLAux 0 (collapseST false (replCR (clean_text l)))) = clean_text l
  rw [h1, h2, h3]
  exact clean_text_pstrip l

/-! Part F: lemmas about the Section Splitter. -/

theorem findHeaderAux_lt {alts : List (List Char)} :
    ∀ {l : List Char} {n p : Nat}, findHeaderAux alts l n = some p → p < n + l.length := by
  intro l
  induction l with
  | nil => intro n p h; simp [findHeaderAux] at h
  | cons c cs ih =>
    intro n p h
    rw [show findHeaderAux alts (c :: cs) n =
        (if c == '\n' && headerTail alts cs then some n
         else findHeaderAux alts cs (n + 1)) from rfl] at h
    by_cases hc : (c == '\n' && headerTail alts cs) = true
    · rw [if_pos hc] at h
      have : p = n := by
        injection h
        omega
      subst this
      simp only [List.length_cons]
      omega
    · rw [if_neg hc] at h
      have := ih h
      simp only [List.length_cons]
      omega

theorem findHeader_le {alts : List (List Char)} {t : List Char} {p : Nat}
    (h : findHeader alts t = some p) : p ≤ t.length := by
  rw [findHeader] at h
  by_cases hh : headerTail alts t = true
  · rw [if_pos hh] at h
    injection h with h
    omega
  · rw [if_neg hh] at h
    have := findHeaderAux_lt h
    omega

theorem rawFound_le {t : List Char} {x : Nat × String} (h : x ∈ rawFound t) :
    x.1 ≤ t.length := by
  rw [rawFound] at h
  rcases List.mem_filterMap.mp h with ⟨a, _, ha⟩
  cases hf : findHeader a.2 t with
  | none => rw [hf] at ha; simp at ha
  | some p =>
    rw [hf] at ha
    simp only [Option.map_some'] at ha
    have hx : (p, a.1) = x := Option.some.inj ha
    rw [← hx]
    exact findHeader_le hf

theorem foundSorted_le {t : List Char} {x : Nat × String} (h : x ∈ foundSorted t) :
    x.1 ≤ t.length := by
  rw [foundSorted] at h
  exact rawFound_le ((List.mem_insertionSort lexLe).mp h)

theorem foundSorted_pairwise_lex (t : List Char) :
    List.Pairwise lexLe (foundSorted t) :=
  List.sorted_insertionSort lexLe (rawFound t)

theorem foundSorted_pairwise (t : List Char) :
    List.Pairwise (fun a b : Nat × String => a.1 ≤ b.1) (foundSorted t) := by
  apply List.Pairwise.imp _ (foundSorted_pairwise_lex t)
  intro a b hab
  rcases hab with h | ⟨h, _⟩
  · exact Nat.le_of_lt h
  · exact Nat.le_of_eq h

theorem rangesFrom_starts (t : List Char) :
    ∀ fs : List (Nat × String), (rangesFrom t fs).map Prod.fst = fs.map Prod.fst := by
  intro fs
  induction fs with
  | nil => rfl
  | cons x rest ih =>
    obtain ⟨p, k⟩ := x
    cases rest with
    | nil => rfl
    | cons y rest' =>
      obtain ⟨q, k'⟩ := y
      show p :: (rangesFrom t ((q, k') :: rest')).map Prod.fst
        = p :: ((q, k') :: rest').map Prod.fst
      rw [ih]

theorem rangesFrom_bounds (t : List Char) :
    ∀ fs : List (Nat × String),
    List.Pairwise (fun a b : Nat × String => a.1 ≤ b.1) fs →
    (∀ x ∈ fs, x.1 ≤ t.length) →
    (∀ r ∈ rangesFrom t fs, r.1 ≤ r.2) ∧
    List.Pairwise (fun r1 r2 : Nat × Nat => r1.2 ≤ r2.1) (rangesFrom t fs) := by
  intro fs
  induction fs with
  | nil =>
    intro _ _
    exact ⟨fun r hr => absurd hr (by simp [rangesFrom]), by simp [rangesFrom]⟩
  | cons x rest ih =>
    intro hpw hb
    obtain ⟨p, k⟩ := x
    obtain ⟨hhead, hrest⟩ := List.pairwise_cons.mp hpw
    have hb' : ∀ y ∈ rest, y.1 ≤ t.length := fun y hy => hb y (List.mem_cons_of_mem _ hy)
    obtain ⟨ihb, ihpw⟩ := ih hrest hb'
    cases rest with
    | nil =>
      refine ⟨?_, ?_⟩
      · intro r hr
        have hsh : rangesFrom t [(p, k)] = [(p, t.length)] := rfl
        rw [hsh] at hr
        have hr' : r = (p, t.length) := by simpa using hr
        rw [hr']
        exact hb (p, k) (List.mem_cons_self _ _)
      · have hsh : rangesFrom t [(p, k)] = [(p, t.length)] := rfl
        rw [hsh]
        simp
    | cons y rest2 =>
      obtain ⟨q, k2⟩ := y
      have hshape : rangesFrom t ((p, k) :: (q, k2) :: rest2)
          = (p, q) :: rangesFrom t ((q, k2) :: rest2) := rfl
      refine ⟨?_, ?_⟩
      · intro r hr
        rw [hshape] at hr
        rcases List.mem_cons.mp hr with h1 | h1
        · rw [h1]
          exact hhead (q, k2) (List.mem_cons_self _ _)
        · exact ihb r h1
      · rw [hshape, List.pairwise_cons]
        refine ⟨?_, ihpw⟩
        intro r hr
        have hmem : r.1 ∈ (rangesFrom t ((q, k2) :: rest2)).map Prod.fst :=
          List.mem_map_of_mem Prod.fst hr
        rw [rangesFrom_starts] at hmem
        rcases List.mem_map.mp hmem with ⟨z, hz, hz1⟩
        show q ≤ r.1
        rw [← hz1]
        rcases List.mem_cons.mp hz with h1 | h1
        · simp [h1]
        · exact (List.pairwise_cons.mp hrest).1 z h1

theorem spans_flatten (t : List Char) :
    ∀ fs : List (Nat × String),
    List.Pairwise (fun a b : Nat × String => a.1 ≤ b.1) fs →
    (∀ x ∈ fs, x.1 ≤ t.length) →
    ∀ p k rest, fs = (p, k) :: rest →
    ((spansFrom t fs).map Prod.snd).flatten = t.drop p := by
  intro fs
  induction fs with
  | nil => intro _ _ p k rest h; cases h
  | cons x fs' ih =>
    intro hpw hb p k rest h
    have hx : x = (p, k) := by injection h with h1 _
    subst hx
    obtain ⟨hhead, hrest⟩ := List.pairwise_cons.mp hpw
    have hb' : ∀ y ∈ fs', y.1 ≤ t.length := fun y hy => hb y (List.mem_cons_of_mem _ hy)
    cases fs' with
    | nil =>
      have hshape : spansFrom t [(p, k)] = [(k, (t.drop p).take (t.length - p))] := rfl
      rw [hshape, List.map_cons, List.map_nil, List.flatten_cons, List.flatten_nil,
        List.append_nil]
      have hlen : (t.drop p).length = t.length - p := List.length_drop ..
      rw [← hlen, List.take_length]
    | cons y rest2 =>
      obtain ⟨q, k2⟩ := y
      have hq : p ≤ q := hhead (q, k2) (List.mem_cons_self _ _)
      have hshape : spansFrom t ((p, k) :: (q, k2) :: rest2)
          = (k, (t.drop p).take (q - p)) :: spansFrom t ((q, k2) :: rest2) := rfl
      rw [hshape, List.map_cons, List.flatten_cons, ih hrest hb' q k2 rest2 rfl]
      have hsplit := List.drop_take_append_drop t p (q - p)
      rw [Nat.add_sub_cancel' hq] at hsplit
      exact hsplit

theorem lookup_eq_none_of_not_mem :
    ∀ {l : List (String × List Char)} {k : String},
    k ∉ l.map Prod.fst → l.lookup k = none := by
  intro l
  induction l with
  | nil => intro k _; rfl
  | cons x rest ih =>
    intro k hk
    obtain ⟨a, b⟩ := x
    have hka : ¬k = a := by
      intro he
      apply hk
      rw [List.map_cons, he]
      exact List.mem_cons_self _ _
    rw [List.lookup_cons]
    have hfalse : (k == a) = false := by simpa using hka
    rw [hfalse]
    show List.lookup k rest = none
    apply ih
    intro hm
    exact hk (by rw [List.map_cons]; exact List.mem_cons_of_mem _ hm)

theorem lookup_append_none :
    ∀ {l l2 : List (String × List Char)} {k : String},
    l.lookup k = none → (l ++ l2).lookup k = l2.lookup k := by
  intro l
  induction l with
  | nil => intro l2 k _; rfl
  | cons x rest ih =>
    intro l2 k h
    obtain ⟨a, b⟩ := x
    rw [List.lookup_cons] at h
    rw [List.cons_append, List.lookup_cons]
    cases hk : k == a
    · rw [hk] at h
      exact ih h
    · rw [hk] at h
      simp at h

theorem lookup_singleton (k : String) (v : List Char) :
    List.lookup k [(k, v)] = some v := by
  rw [List.lookup_cons]
  have hk : (k == k) = true := by simp
  rw [hk]

theorem lookup_mem_keys_ne_none :
    ∀ {l : List (String × List Char)} {k : String},
    k ∈ l.map Prod.fst → l.lookup k ≠ none := by
  intro l
  induction l with
  | nil => intro k h; simp at h
  | cons x rest ih =>
    intro k hk
    obtain ⟨a, b⟩ := x
    rw [List.lookup_cons]
    cases hka : k == a
    · have hmem : k ∈ rest.map Prod.fst := by
        have hne : ¬k = a := by simpa using hka
        rw [List.map_cons] at hk
        rcases List.mem_cons.mp hk with h1 | h1
        · exact absurd h1 hne
        · exact h1
      intro hnone
      exact ih hmem hnone
    · simp

theorem spansFrom_keys (t : List Char) :
    ∀ fs : List (Nat × String), (spansFrom t fs).map Prod.fst = fs.map Prod.snd := by
  intro fs
  induction fs with
  | nil => rfl
  | cons x rest ih =>
    obtain ⟨p, k⟩ := x
    cases rest with
    | nil => rfl
    | cons y rest2 =>
      obtain ⟨q, k2⟩ := y
      show k :: (spansFrom t ((q, k2) :: rest2)).map Prod.fst
        = k :: ((q, k2) :: rest2).map Prod.snd
      rw [ih]

theorem sectionsOf_keys (t : List Char) (fs : List (Nat × String)) :
    (sectionsOf t fs).map Prod.fst = fs.map Prod.snd := by
  rw [sectionsOf, List.map_map]
  have hcomp : (Prod.fst ∘ fun s : String × List Char => (s.1, pstrip s.2)) = Prod.fst := by
    funext s
    rfl
  rw [hcomp, spansFrom_keys]

theorem split_sections_eq (input : List Char) :
    split_sections input =
      if (foundSorted (clean_text input)).isEmpty then [("summary", clean_text input)]
      else
        if (sectionsOf (clean_text input) (foundSorted (clean_text input))).lookup ("experience")
            = none ∧ 800 < (clean_text input).length then
          sectionsOf (clean_text input) (foundSorted (clean_text input))
            ++ [("experience", (clean_text input).take 1500)]
        else sectionsOf (clean_text input) (foundSorted (clean_text input)) := rfl

/-! Part G: the claims about the Text Normalizer and the Section Splitter. -/

/-- C9: the Text Normalizer is idempotent; applying clean_text to its own
output returns the same result. -/
theorem claim_C9_clean_text_idempotent :
    ∀ s : List Char, clean_text (clean_text s) = clean_text s :=
  clean_text_of_clean

set_option maxRecDepth 20000 in
/-- C8: on the specific input consisting of a Skills line, a skill list, an
Education line and a degree line, split_sections returns exactly the mapping
with the stripped skills span and the stripped education span, in header
order. -/
theorem claim_C8_example_split :
    split_sections ("Skills\nPython, Go\nEducation\nBS CS".toList)
      = [("skills", ("Skills\nPython, Go".toList)),
         ("education", ("Education\nBS CS".toList))] := by
  decide

set_option maxRecDepth 20000 in
/-- C3 counterexample: on the C8 example input, concatenating the returned
section texts in order does not reconstruct the original text, because the
code strips every span, so the claim as stated is false. -/
theorem claim_C3_counterexample :
    ¬(((split_sections ("Skills\nPython, Go\nEducation\nBS CS".toList)).map Prod.snd).flatten
      = ("Skills\nPython, Go\nEducation\nBS CS".toList)) := by
  decide

/-- C3 (amended): the found headers are sorted by match position; the
underlying half-open index ranges are well formed and pairwise disjoint,
each ending where the next begins; concatenating the unstripped spans
reconstructs the cleaned text from the first match position onward; the
returned sections are those spans stripped, and with no header match the
whole cleaned text is returned as one summary section. -/
theorem claim_C3_span_structure :
    ∀ input : List Char,
    List.Pairwise (fun a b : Nat × String => a.1 ≤ b.1) (foundSorted (clean_text input)) ∧
    (∀ r ∈ rangesFrom (clean_text input) (foundSorted (clean_text input)), r.1 ≤ r.2) ∧
    List.Pairwise (fun r1 r2 : Nat × Nat => r1.2 ≤ r2.1)
      (rangesFrom (clean_text input) (foundSorted (clean_text input))) ∧
    (∀ p k rest, foundSorted (clean_text input) = (p, k) :: rest →
      ((spansFrom (clean_text input) (foundSorted (clean_text input))).map Prod.snd).flatten
        = (clean_text input).drop p) ∧
    (foundSorted (clean_text input) = [] →
      split_sections input = [("summary", clean_text input)]) := by
  intro input
  have hpw := foundSorted_pairwise (clean_text input)
  have hb : ∀ x ∈ foundSorted (clean_text input), x.1 ≤ (clean_text input).length :=
    fun x hx => foundSorted_le hx
  obtain ⟨hb2, hpw2⟩ := rangesFrom_bounds (clean_text input) _ hpw hb
  refine ⟨hpw, hb2, hpw2, ?_, ?_⟩
  · intro p k rest h
    exact spans_flatten (clean_text input) _ hpw hb p k rest h
  · intro h0
    rw [split_sections_eq, if_pos (by rw [h0]; rfl)]

set_option maxRecDepth 20000 in
/-- C3 witness: the amended span reconstruction, instantiated on the C8
example input, where the first header matches at position zero. -/
theorem claim_C3_witness :
    ((spansFrom (clean_text ("Skills\nPython, Go\nEducation\nBS CS".toList))
        (foundSorted (clean_text ("Skills\nPython, Go\nEducation\nBS CS".toList)))).map
          Prod.snd).flatten
      = (clean_text ("Skills\nPython, Go\nEducation\nBS CS".toList)).drop 0 :=
  (claim_C3_span_structure _).2.2.2.1 0 "skills" [(17, "education")] (by decide)

set_option maxRecDepth 20000 in
/-- C2 counterexample: a text of 801 letters has a cleaned form longer than
800 characters and no experience header match, yet the returned mapping has
no experience key, because the no-header branch returns only a summary
section; so the claim as stated is false. -/
theorem claim_C2_counterexample :
    (800 < (clean_text (List.replicate 801 'a')).length) ∧
    findHeader altsExperience (clean_text (List.replicate 801 'a')) = none ∧
    (split_sections (List.replicate 801 'a')).lookup ("experience") = none := by
  refine ⟨by decide, by decide, by decide⟩

/-- C2 (amended): whenever at least one header matched, no experience header
matched, and the cleaned text is longer than 800 characters, the returned
mapping contains an experience key holding the first 1500 characters of the
cleaned text; and when an experience section was detected, the fallback
never overwrites it: the mapping is exactly the per-header sections. -/
theorem claim_C2_experience_fallback :
    ∀ input : List Char,
    (foundSorted (clean_text input) ≠ [] →
      "experience" ∉ (foundSorted (clean_text input)).map Prod.snd →
      800 < (clean_text input).length →
      (split_sections input).lookup ("experience")
        = some ((clean_text input).take 1500)) ∧
    ("experience" ∈ (foundSorted (clean_text input)).map Prod.snd →
      split_sections input
        = sectionsOf (clean_text input) (foundSorted (clean_text input))) := by
  intro input
  constructor
  · intro hne hnotin hlen
    have hempty : (foundSorted (clean_text input)).isEmpty = false := by
      cases hfs : foundSorted (clean_text input)
      · exact absurd hfs hne
      · rfl
    have hlookup : (sectionsOf (clean_text input)
        (foundSorted (clean_text input))).lookup ("experience") = none := by
      apply lookup_eq_none_of_not_mem
      rw [sectionsOf_keys]
      exact hnotin
    rw [split_sections_eq, if_neg (by simp [hempty]), if_pos ⟨hlookup, hlen⟩]
    rw [lookup_append_none hlookup, lookup_singleton]
  · intro hin
    have hne : foundSorted (clean_text input) ≠ [] := by
      intro h0
      rw [h0] at hin
      simp at hin
    have hempty : (foundSorted (clean_text input)).isEmpty = false := by
      cases hfs : foundSorted (clean_text input)
      · exact absurd hfs hne
      · rfl
    have hcond : ¬((sectionsOf (clean_text input)
        (foundSorted (clean_text input))).lookup ("experience") = none
        ∧ 800 < (clean_text input).length) := by
      rintro ⟨h1, _⟩
      apply lookup_mem_keys_ne_none _ h1
      rw [sectionsOf_keys]
      exact hin
    rw [split_sections_eq, if_neg (by simp [hempty]), if_neg hcond]

set_option maxRecDepth 20000 in
/-- C2 witness: the amended fallback, instantiated on a text with a skills
header followed by 900 letters: the experience key holds the first 1500
characters of the cleaned text. -/
theorem claim_C2_witness :
    (split_sections (("Skills\n".toList) ++ List.replicate 900 'a')).lookup ("experience")
      = some ((clean_text (("Skills\n".toList) ++ List.replicate 900 'a')).take 1500) :=
  (claim_C2_experience_fallback _).1 (by decide) (by decide) (by decide)

/-! Part H: lemmas about the session state machine. -/

theorem candidatesOf_mem {s : SessionState} {i : Nat} :
    i ∈ candidatesOf s ↔ i < s.bank.length ∧ i ∉ s.asked := by
  rw [candidatesOf, List.mem_filter, List.mem_range]
  simp

theorem next_question_eq (r : Nat) (s : SessionState) :
    next_question r s =
      if (candidatesOf s).isEmpty then (msgExhaust, { s with current := none })
      else
        ("**Question ("
            ++ (s.bank.getD ((candidatesOf s).getD (r % (candidatesOf s).length) 0)
              ⟨"", ""⟩).sec
            ++ "):** "
            ++ (s.bank.getD ((candidatesOf s).getD (r % (candidatesOf s).length) 0)
              ⟨"", ""⟩).question,
         { s with
            asked := insert ((candidatesOf s).getD (r % (candidatesOf s).length) 0) s.asked,
            current := some ((candidatesOf s).getD (r % (candidatesOf s).length) 0) }) := rfl

theorem isEmpty_false_of_ne_nil {l : List Nat} (h : l ≠ []) : l.isEmpty = false := by
  cases hl : l
  · exact absurd hl h
  · rfl

theorem pickedOne_getD {r : Nat} {s : SessionState} (h : candidatesOf s ≠ []) :
    (candidatesOf s).getD (r % (candidatesOf s).length) 0 ∈ candidatesOf s := by
  have hlen : 0 < (candidatesOf s).length := List.length_pos.mpr h
  have hmod : r % (candidatesOf s).length < (candidatesOf s).length := Nat.mod_lt _ hlen
  rw [List.getD_eq_getElem?_getD, List.getElem?_eq_getElem hmod]
  exact List.getElem_mem ..

theorem next_question_empty {r : Nat} {s : SessionState} (h : candidatesOf s = []) :
    next_question r s = (msgExhaust, { s with current := none }) := by
  rw [next_question_eq, if_pos (by rw [h]; rfl)]

theorem next_question_pick {r : Nat} {s : SessionState} (h : candidatesOf s ≠ []) :
    (next_question r s).2.asked
        = insert ((candidatesOf s).getD (r % (candidatesOf s).length) 0) s.asked
    ∧ (next_question r s).2.current
        = some ((candidatesOf s).getD (r % (candidatesOf s).length) 0)
    ∧ (next_question r s).2.bank = s.bank
    ∧ (next_question r s).2.transcript = s.transcript := by
  rw [next_question_eq, if_neg (by simp [isEmpty_false_of_ne_nil h])]
  exact ⟨rfl, rfl, rfl, rfl⟩

theorem next_question_bank (r : Nat) (s : SessionState) :
    (next_question r s).2.bank = s.bank := by
  by_cases h : candidatesOf s = []
  · rw [next_question_empty h]
  · exact (next_question_pick h).2.2.1

theorem submit_answer_none {s : SessionState} {ans : Option String}
    {backend : BackendResult} {ts : Nat} (h : s.current = none) :
    submit_answer s ans backend ts = (warnClickNext, s) := by
  simp only [submit_answer, h]

theorem submit_answer_oob {s : SessionState} {ans : Option String}
    {backend : BackendResult} {ts idx : Nat} (h : s.current = some idx)
    (hge : s.bank.length ≤ idx) :
    submit_answer s ans backend ts = (warnClickNext, s) := by
  simp only [submit_answer, h]
  rw [if_pos hge]

theorem submit_answer_emptyans {s : SessionState} {ans : Option String}
    {backend : BackendResult} {ts idx : Nat} (h : s.current = some idx)
    (hlt : idx < s.bank.length) (hemp : (pstrip (orEmpty ans).toList).isEmpty = true) :
    submit_answer s ans backend ts = (warnTypeAnswer, s) := by
  simp only [submit_answer, h]
  rw [if_neg (by omega), if_pos hemp]

theorem submit_answer_err {s : SessionState} {ans : Option String} {e : String}
    {ts idx : Nat} (h : s.current = some idx) (hlt : idx < s.bank.length)
    (hne : (pstrip (orEmpty ans).toList).isEmpty = false) :
    submit_answer s ans (.err e) ts = ("❌ API error: " ++ e, s) := by
  simp only [submit_answer, h]
  rw [if_neg (by omega), if_neg (by rw [hne]; simp)]

theorem submit_answer_ok {s : SessionState} {ans : Option String}
    {parsed : Option CritJson} {ts idx : Nat} (h : s.current = some idx)
    (hlt : idx < s.bank.length) (hne : (pstrip (orEmpty ans).toList).isEmpty = false) :
    (submit_answer s ans (.ok parsed) ts).2 =
      { s with transcript := s.transcript ++
        [{ ts := ts, sec := (s.bank.getD idx ⟨"", ""⟩).sec,
           question := (s.bank.getD idx ⟨"", ""⟩).question,
           answer := pstrip (orEmpty ans).toList,
           feedback := (parsed.getD fallbackCrit).feedback.getD [],
           rating := (parsed.getD fallbackCrit).rating.getD 0,
           sample_answer := (parsed.getD fallbackCrit).sample_answer.getD "" }] } := by
  simp only [submit_answer, h]
  rw [if_neg (by omega), if_neg (by rw [hne]; simp)]

theorem submit_answer_skeleton (s : SessionState) (ans : Option String)
    (backend : BackendResult) (ts : Nat) :
    (submit_answer s ans backend ts).2.bank = s.bank ∧
    (submit_answer s ans backend ts).2.asked = s.asked ∧
    (submit_answer s ans backend ts).2.current = s.current := by
  cases hcur : s.current with
  | none => rw [submit_answer_none hcur]; exact ⟨rfl, rfl, hcur⟩
  | some idx =>
    by_cases hge : s.bank.length ≤ idx
    · rw [submit_answer_oob hcur hge]; exact ⟨rfl, rfl, hcur⟩
    · have hlt : idx < s.bank.length := by omega
      cases hemp : (pstrip (orEmpty ans).toList).isEmpty
      · cases backend with
        | err e => rw [submit_answer_err hcur hlt hemp]; exact ⟨rfl, rfl, hcur⟩
        | ok parsed =>
          rw [show (submit_answer s ans (BackendResult.ok parsed) ts).2.bank
              = s.bank from by rw [submit_answer_ok hcur hlt hemp]]
          rw [show (submit_answer s ans (BackendResult.ok parsed) ts).2.asked
              = s.asked from by rw [submit_answer_ok hcur hlt hemp]]
          rw [show (submit_answer s ans (BackendResult.ok parsed) ts).2.current
              = s.current from by rw [submit_answer_ok hcur hlt hemp]]
          exact ⟨rfl, rfl, hcur⟩
      · rw [submit_answer_emptyans hcur hlt hemp]; exact ⟨rfl, rfl, hcur⟩

theorem start_session_eq (files : List RFile) (extract : RFile → List Char)
    (bb : List Char → List QEntry) :
    start_session files extract bb =
      if files.isEmpty then (warnUpload, emptyState)
      else
        if ((files.filter (fun f => endsWithPdf f.name)).map extract).isEmpty
        then (warnNoPdf, emptyState)
        else
          (msgBuilt (bb ('\n' :: '\n'
              :: joinSep ((files.filter (fun f => endsWithPdf f.name)).map extract))).length,
           initState (bb ('\n' :: '\n'
              :: joinSep ((files.filter (fun f => endsWithPdf f.name)).map extract)))) := rfl

theorem buildOp_eq (prior : SessionState) (files : List RFile)
    (extract : RFile → List Char) (bb : List Char → List QEntry) :
    buildOp prior files extract bb = start_session files extract bb := rfl

theorem sessionInv_emptyState : SessionInv emptyState := by
  constructor
  · intro i hi
    simp [emptyState] at hi
  · intro i hi
    simp [emptyState] at hi

theorem sessionInv_initState (bank : List QEntry) : SessionInv (initState bank) := by
  constructor
  · intro i hi
    simp [initState] at hi
  · intro i hi
    simp [initState] at hi

theorem sessionInv_step {s s' : SessionState} (hInv : SessionInv s)
    (hstep : SessionStep s s') : SessionInv s' := by
  cases hstep with
  | build files extract bb =>
    rw [buildOp_eq, start_session_eq]
    by_cases h1 : files.isEmpty
    · rw [if_pos h1]
      exact sessionInv_emptyState
    · rw [if_neg h1]
      by_cases h2 : ((files.filter (fun f => endsWithPdf f.name)).map extract).isEmpty
      · rw [if_pos h2]
        exact sessionInv_emptyState
      · rw [if_neg h2]
        exact sessionInv_initState _
  | nextq r =>
    by_cases h : candidatesOf s = []
    · rw [next_question_empty h]
      constructor
      · exact hInv.1
      · intro i hi
        cases hi
    · obtain ⟨ha, hc, hb, _⟩ := next_question_pick (r := r) h
      have hidx := pickedOne_getD (r := r) h
      obtain ⟨hidxlt, _⟩ := candidatesOf_mem.mp hidx
      constructor
      · intro i hi
        rw [ha] at hi
        rw [hb]
        rcases Finset.mem_insert.mp hi with h1 | h1
        · exact h1 ▸ hidxlt
        · exact hInv.1 i h1
      · intro i hi
        rw [hc] at hi
        rw [ha]
        injection hi with hi
        rw [← hi]
        exact Finset.mem_insert_self _ _
  | submit ans backend ts =>
    obtain ⟨hb, ha, hc⟩ := submit_answer_skeleton s ans backend ts
    constructor
    · intro i hi
      rw [ha] at hi
      rw [hb]
      exact hInv.1 i hi
    · intro i hi
      rw [hc] at hi
      rw [ha]
      exact hInv.2 i hi
  | exporting =>
    exact hInv

theorem pickedOne_none {r : Nat} {s : SessionState} (h : candidatesOf s = []) :
    pickedOne r s = none := by
  rw [pickedOne]
  simp [h]

theorem pickedOne_some {r : Nat} {s : SessionState} (h : candidatesOf s ≠ []) :
    pickedOne r s = some ((candidatesOf s).getD (r % (candidatesOf s).length) 0) := by
  rw [pickedOne]
  simp [isEmpty_false_of_ne_nil h]

theorem pickedAlong_nodup : ∀ (rs : List Nat) (s : SessionState),
    (pickedAlong rs s).Nodup ∧ ∀ x ∈ pickedAlong rs s, x ∉ s.asked := by
  intro rs
  induction rs with
  | nil => intro s; exact ⟨List.nodup_nil, by simp [pickedAlong]⟩
  | cons r rs ih =>
    intro s
    by_cases h : candidatesOf s = []
    · have hshape : pickedAlong (r :: rs) s = pickedAlong rs (next_question r s).2 := by
        simp only [pickedAlong, pickedOne_none h]
      have hasked : (next_question r s).2.asked = s.asked := by
        rw [next_question_empty h]
      obtain ⟨ihn, ihm⟩ := ih (next_question r s).2
      rw [hshape]
      refine ⟨ihn, ?_⟩
      intro x hx
      have := ihm x hx
      rw [hasked] at this
      exact this
    · have hshape : pickedAlong (r :: rs) s
          = (candidatesOf s).getD (r % (candidatesOf s).length) 0
            :: pickedAlong rs (next_question r s).2 := by
        simp only [pickedAlong, pickedOne_some h]
      obtain ⟨ha, _, _, _⟩ := next_question_pick (r := r) h
      obtain ⟨ihn, ihm⟩ := ih (next_question r s).2
      obtain ⟨_, hnotmem⟩ := candidatesOf_mem.mp (pickedOne_getD (r := r) h)
      rw [hshape]
      constructor
      · rw [List.nodup_cons]
        refine ⟨?_, ihn⟩
        intro hmem
        have := ihm _ hmem
        rw [ha] at this
        exact this (Finset.mem_insert_self _ _)
      · intro x hx
        rcases List.mem_cons.mp hx with h1 | h1
        · rw [h1]
          exact hnotmem
        · have := ihm x h1
          rw [ha] at this
          intro hmem
          exact this (Finset.mem_insert_of_mem hmem)

theorem runNexts_cons (r : Nat) (rs : List Nat) (s : SessionState) :
    runNexts (r :: rs) s = runNexts rs (next_question r s).2 := rfl

theorem runNexts_fill : ∀ (rs : List Nat) (s : SessionState),
    (∀ i ∈ s.asked, i < s.bank.length) →
    s.asked.card + rs.length ≤ s.bank.length →
    (runNexts rs s).bank = s.bank ∧
    (runNexts rs s).asked.card = s.asked.card + rs.length ∧
    (∀ i ∈ (runNexts rs s).asked, i < s.bank.length) := by
  intro rs
  induction rs with
  | nil => intro s hbound _; exact ⟨rfl, by simp [runNexts], hbound⟩
  | cons r rs ih =>
    intro s hbound hcard
    have hlt : s.asked.card < s.bank.length := by
      simp only [List.length_cons] at hcard
      omega
    have hne : candidatesOf s ≠ [] := by
      intro h0
      have hsub : Finset.range s.bank.length ⊆ s.asked := by
        intro i hi
        by_contra hmem
        have hic : i ∈ candidatesOf s :=
          candidatesOf_mem.mpr ⟨Finset.mem_range.mp hi, hmem⟩
        rw [h0] at hic
        cases hic
      have hcle := Finset.card_le_card hsub
      rw [Finset.card_range] at hcle
      omega
    obtain ⟨ha, hc, hb, _⟩ := next_question_pick (r := r) hne
    obtain ⟨hidxlt, hidxnot⟩ := candidatesOf_mem.mp (pickedOne_getD (r := r) hne)
    rw [runNexts_cons]
    have hbound' : ∀ i ∈ (next_question r s).2.asked, i < (next_question r s).2.bank.length := by
      rw [ha, hb]
      intro i hi
      rcases Finset.mem_insert.mp hi with h1 | h1
      · exact h1 ▸ hidxlt
      · exact hbound i h1
    have hcard' : (next_question r s).2.asked.card + rs.length
        ≤ (next_question r s).2.bank.length := by
      rw [ha, hb, Finset.card_insert_of_not_mem hidxnot]
      simp only [List.length_cons] at hcard
      omega
    obtain ⟨ihb, ihc, ihbound⟩ := ih (next_question r s).2 hbound' hcard'
    refine ⟨?_, ?_, ?_⟩
    · rw [ihb, hb]
    · rw [ihc, ha, Finset.card_insert_of_not_mem hidxnot]
      simp only [List.length_cons]
      omega
    · intro i hi
      have := ihbound i hi
      rw [hb] at this
      exact this

/-! Part I: the claims about the session state machine. -/

/-- C5: in every session state reachable from the initial empty state by
build, next, submit and export events, asked is a subset of the valid bank
indices, and current, whenever set, is a member of asked. -/
theorem claim_C5_reachable_invariant :
    ∀ s : SessionState, Relation.ReflTransGen SessionStep emptyState s → SessionInv s := by
  intro s h
  induction h with
  | refl => exact sessionInv_emptyState
  | tail _ hstep ih => exact sessionInv_step ih hstep

/-- C5 witness: the invariant holds at the initial empty state, which is
reachable by the empty event sequence. -/
theorem claim_C5_witness : SessionInv emptyState :=
  claim_C5_reachable_invariant emptyState Relation.ReflTransGen.refl

/-- C4 counterexample: with a bank of two entries carrying the same literal
question text, the first two next calls report the same question text, and
the second call, the (n)th call for bank size n = 2, does not report
exhaustion; so the claim as stated is false. -/
theorem claim_C4_counterexample :
    (next_question 0 (initState [⟨"skills", "Q"⟩, ⟨"skills", "Q"⟩])).1
      = (next_question 0 (next_question 0 (initState [⟨"skills", "Q"⟩, ⟨"skills", "Q"⟩])).2).1
    ∧ (next_question 0 (next_question 0 (initState [⟨"skills", "Q"⟩, ⟨"skills", "Q"⟩])).2).1
      ≠ msgExhaust := by
  refine ⟨by decide, by decide⟩

/-- C4 (amended): across any sequence of next calls the selected bank
indices are pairwise distinct, so each index enters asked at most once and
no index is selected twice; when the oracle sequence has exactly bank-size
many entries, those calls consume every index, and any further next call,
the (n+1)th, reports exhaustion and clears current. -/
theorem claim_C4_no_repeat_and_exhaust :
    ∀ (bank : List QEntry) (rs : List Nat),
    (pickedAlong rs (initState bank)).Nodup ∧
    (rs.length = bank.length →
      (runNexts rs (initState bank)).asked = Finset.range bank.length ∧
      ∀ r : Nat, (next_question r (runNexts rs (initState bank))).1 = msgExhaust ∧
        (next_question r (runNexts rs (initState bank))).2.current = none) := by
  intro bank rs
  refine ⟨(pickedAlong_nodup rs _).1, ?_⟩
  intro hlen
  have h0 : ∀ i ∈ (initState bank).asked, i < (initState bank).bank.length := by
    intro i hi
    simp [initState] at hi
  have hcard : (initState bank).asked.card + rs.length ≤ (initState bank).bank.length := by
    simp [initState, hlen]
  obtain ⟨hb, hc, hbound⟩ := runNexts_fill rs _ h0 hcard
  have hsub : (runNexts rs (initState bank)).asked ⊆ Finset.range bank.length := by
    intro i hi
    rw [Finset.mem_range]
    have := hbound i hi
    simpa [initState] using this
  have hcards : (runNexts rs (initState bank)).asked.card = bank.length := by
    rw [hc]
    simp [initState, hlen]
  have heq : (runNexts rs (initState bank)).asked = Finset.range bank.length := by
    apply Finset.eq_of_subset_of_card_le hsub
    rw [hcards, Finset.card_range]
  refine ⟨heq, ?_⟩
  intro r
  have hbank : (runNexts rs (initState bank)).bank = bank := hb
  have hempty : candidatesOf (runNexts rs (initState bank)) = [] := by
    rw [candidatesOf]
    apply List.filter_eq_nil_iff.mpr
    intro i hi
    rw [hbank] at hi
    have hmem : i ∈ (runNexts rs (initState bank)).asked := by
      rw [heq, Finset.mem_range]
      exact List.mem_range.mp hi
    simp [hmem]
  rw [next_question_empty hempty]
  exact ⟨rfl, rfl⟩

/-- C4 witness: with a one-question bank, one next call makes asked equal
to the full index range, the selection list has no duplicate, and a further
call reports exhaustion. -/
theorem claim_C4_witness :
    (pickedAlong [0] (initState [⟨"skills", "Q"⟩])).Nodup ∧
    (runNexts [0] (initState [⟨"skills", "Q"⟩])).asked = Finset.range 1 ∧
    (next_question 5 (runNexts [0] (initState [⟨"skills", "Q"⟩]))).1 = msgExhaust := by
  obtain ⟨h1, h2⟩ := claim_C4_no_repeat_and_exhaust [⟨"skills", "Q"⟩] [0]
  obtain ⟨h3, h4⟩ := h2 rfl
  exact ⟨h1, h3, (h4 5).1⟩

/-- C1 counterexample: from a prior session state holding a bank, an asked
index, a current question and a transcript in progress, a build click with
no files reports the warning but resets the state to the empty state, which
differs from the prior state; so unchanged state fails for build errors. -/
theorem claim_C1_counterexample :
    (buildOp sampleState [] (fun _ => []) (fun _ => [])).1 = warnUpload ∧
    (buildOp sampleState [] (fun _ => []) (fun _ => [])).2 ≠ sampleState := by
  refine ⟨rfl, by decide⟩

/-- C1 (amended): the submit input errors, no active question and empty or
whitespace-only answer, report a warning and leave the state unchanged; the
build input errors, no files and no valid PDF inputs, report a warning and
set the session to the fresh empty state, which equals the prior state only
when that state was already empty. -/
theorem claim_C1_input_errors :
    (∀ (s : SessionState) (ans : Option String) (backend : BackendResult) (ts : Nat),
      s.current = none → submit_answer s ans backend ts = (warnClickNext, s)) ∧
    (∀ (s : SessionState) (idx : Nat) (ans : Option String) (backend : BackendResult)
      (ts : Nat), s.current = some idx → idx < s.bank.length →
      (pstrip (orEmpty ans).toList).isEmpty = true →
      submit_answer s ans backend ts = (warnTypeAnswer, s)) ∧
    (∀ (prior : SessionState) (extract : RFile → List Char) (bb : List Char → List QEntry),
      buildOp prior [] extract bb = (warnUpload, emptyState)) ∧
    (∀ (prior : SessionState) (files : List RFile) (extract : RFile → List Char)
      (bb : List Char → List QEntry),
      files ≠ [] → (∀ f ∈ files, endsWithPdf f.name = false) →
      buildOp prior files extract bb = (warnNoPdf, emptyState)) := by
  refine ⟨?_, ?_, ?_, ?_⟩
  · intro s ans backend ts h
    exact submit_answer_none h
  · intro s idx ans backend ts h hlt hemp
    exact submit_answer_emptyans h hlt hemp
  · intro prior extract bb
    rfl
  · intro prior files extract bb hne hnopdf
    rw [buildOp_eq, start_session_eq]
    have h1 : files.isEmpty = false := by
      cases hf : files
      · exact absurd hf hne
      · rfl
    rw [if_neg (by simp [h1])]
    have h2 : files.filter (fun f => endsWithPdf f.name) = [] := by
      apply List.filter_eq_nil_iff.mpr
      intro f hf
      simp [hnopdf f hf]
    rw [h2]
    rfl

/-- C1 witness: a whitespace-only answer submitted against a concrete state
with an active question reports the type-an-answer warning and returns the
same state. -/
theorem claim_C1_witness :
    submit_answer sampleState (some ("   ")) (BackendResult.ok none) 0
      = (warnTypeAnswer, sampleState) :=
  claim_C1_input_errors.2.1 sampleState 0 (some ("   ")) (BackendResult.ok none) 0 rfl
    (by decide) (by decide)

/-- C10: when current holds an index at or beyond the length of bank, submit
reports the same usage warning as when no question is active and leaves the
state unchanged, so the bank indexing after the guard is never reached with
an out-of-range index. -/
theorem claim_C10_oob_guard :
    ∀ (s : SessionState) (idx : Nat) (ans : Option String) (backend : BackendResult)
    (ts : Nat), s.current = some idx → s.bank.length ≤ idx →
    submit_answer s ans backend ts = (warnClickNext, s) ∧
    submit_answer { s with current := none } ans backend ts
      = (warnClickNext, { s with current := none }) := by
  intro s idx ans backend ts h hge
  exact ⟨submit_answer_oob h hge, submit_answer_none rfl⟩

/-- C10 witness: the out-of-range guard on a concrete state whose current
index 7 lies beyond its one-entry bank. -/
theorem claim_C10_witness :
    submit_answer sampleStateOob (some ("hello")) (BackendResult.ok none) 0
      = (warnClickNext, sampleStateOob) :=
  (claim_C10_oob_guard sampleStateOob 7 (some ("hello")) (BackendResult.ok none) 0 rfl
    (by decide)).1

/-- C6: with an active question and a non-empty answer, a backend exception
makes submit return the API error message and the unchanged state, so no
transcript entry is appended. -/
theorem claim_C6_backend_error :
    ∀ (s : SessionState) (idx : Nat) (ans : Option String) (e : String) (ts : Nat),
    s.current = some idx → idx < s.bank.length →
    (pstrip (orEmpty ans).toList).isEmpty = false →
    submit_answer s ans (BackendResult.err e) ts = ("❌ API error: " ++ e, s) := by
  intro s idx ans e ts h hlt hne
  exact submit_answer_err h hlt hne

/-- C6 witness: a concrete backend failure on a state with an active
question and the answer hello leaves the state untouched. -/
theorem claim_C6_witness :
    submit_answer sampleState (some ("hello")) (BackendResult.err ("boom")) 0
      = ("❌ API error: " ++ "boom", sampleState) :=
  claim_C6_backend_error sampleState 0 (some ("hello")) "boom" 0 rfl
    (by decide) (by decide)

/-- C7 counterexample: when the backend response parses as strict JSON but
carries the rating 6, submit appends a transcript entry whose rating is 6,
which is neither in the range one to five nor the parse-failure zero; so
the claim as stated is false. -/
theorem claim_C7_counterexample :
    ((submit_answer sampleState (some ("my answer"))
        (BackendResult.ok (some { feedback := some [], rating := some 6,
                                  sample_answer := some ("") })) 0).2.transcript.map
      TranscriptEntry.rating = [6]) ∧
    ¬((1 : Int) ≤ 6 ∧ (6 : Int) ≤ 5) ∧ (6 : Int) ≠ 0 := by
  refine ⟨by decide, by decide, by decide⟩

/-- C7 (amended): every transcript entry appended by submit carries exactly
the integer rating field of the parsed backend response, with zero
substituted when the field is absent, and the rating is zero whenever
strict JSON parsing failed; in particular the rating lies in one to five
exactly when the backend honours its contract. -/
theorem claim_C7_rating_provenance :
    ∀ (s : SessionState) (idx : Nat) (ans : Option String) (parsed : Option CritJson)
    (ts : Nat), s.current = some idx → idx < s.bank.length →
    (pstrip (orEmpty ans).toList).isEmpty = false →
    ((submit_answer s ans (BackendResult.ok parsed) ts).2.transcript.map
        TranscriptEntry.rating
      = s.transcript.map TranscriptEntry.rating ++ [ratingOf parsed]) ∧
    ratingOf none = 0 := by
  intro s idx ans parsed ts h hlt hne
  refine ⟨?_, rfl⟩
  rw [submit_answer_ok h hlt hne]
  simp [ratingOf]

/-- C7 witness: submitting against a parse failure appends rating zero on a
concrete state. -/
theorem claim_C7_witness :
    ((submit_answer sampleState (some ("my answer")) (BackendResult.ok none) 0).2.transcript.map
      TranscriptEntry.rating = [ratingOf none]) ∧ ratingOf none = 0 := by
  have h := claim_C7_rating_provenance sampleState
    0 (some ("my answer")) none 0 rfl (by decide) (by decide)
  exact ⟨h.1, h.2⟩
